import Mathlib

/-!
The write-side encoder of binary_log.

A shallow embedding of `include/binary_log/binary_log.hpp`.

* Files (`std::FILE*` opened with "wb") are the byte sequences written so far;
  a byte is a `Nat` (every byte the encoder itself produces is reduced
  modulo 256 where the C++ narrows to `uint8_t`).
* `std::set<uint16_t>` is the strictly increasing list of its elements;
  `begin()` is the head of the list, `std::distance(begin(), it)` is the
  position of the element `it` points at.
* The variadic argument pack of `log` is a list of values of one type `α`
  (a sum type when the call mixes types); `packer::pack` is a parameter
  `pack : α → List Nat` giving the bytes it appends to the log file.
-/

set_option linter.dupNamespace false

namespace binary_log

/-! ## Definitions -/

/-- The logger object: the two files and the format string table. -/
structure binary_log where
  m_index_file : List Nat
  m_log_file : List Nat
  m_format_string_table : List Nat
deriving DecidableEq, Repr

/-- The session right after construction: both files were just created with
mode "wb" (empty) and the table is empty. -/
def fresh : binary_log := ⟨[], [], []⟩

/-- Element insertion of `std::set<uint16_t>`: the element goes to its place
in increasing order; an element already present is not inserted again. -/
def set_insert (H : Nat) : List Nat → List Nat
  | [] => [H]
  | x :: xs =>
    if H < x then H :: x :: xs
    else if H = x then x :: xs
    else x :: set_insert H xs

/-- Lookup `std::set::find`: `none` is `end()`, `some i` is the iterator to
the element at position `i` from `begin()`. -/
def set_find (H : Nat) (t : List Nat) : Option Nat :=
  if H ∈ t then some (t.indexOf H) else none

/-- Computes `std::distance(m_format_string_table.begin(), it)` for the
iterator `it` that points at element `H`. -/
def distance (t : List Nat) (H : Nat) : Nat := t.indexOf H

/-- Modelled from the spec: `string_length` of `string_utils.hpp` is not in
the sources at hand; the literal is given as its bytes (without the
terminating NUL) and its length is their number. -/
def string_length (F : List Nat) : Nat := F.length

/-- One `pack_arg`: `packer::pack(m_log_file, input)` appends the packed
bytes of `input` to the log file. -/
def pack_arg {α : Type} (pack : α → List Nat) (log_file : List Nat) (input : α) : List Nat :=
  log_file ++ pack input

/-- The recursion `pack_args(first, rest...)`: pack `first`, then, when
`rest` is not empty, the rest. -/
def pack_args {α : Type} (pack : α → List Nat) (log_file : List Nat) (first : α) :
    List α → List Nat
  | [] => pack_arg pack log_file first
  | r :: rs => pack_args pack (pack_arg pack log_file first) r rs

/-- The member function `log<F, H>(args...)`. -/
def log {α : Type} (pack : α → List Nat) (s : binary_log) (F : List Nat) (H : Nat)
    (args : List α) : binary_log :=
  match set_find H s.m_format_string_table with
  | none =>
    let table := set_insert H s.m_format_string_table
    let pos := distance table H % 256
    let format_string_length := string_length F % 256
    let num_args := args.length % 256
    let index_file :=
      s.m_index_file ++ [pos] ++ [format_string_length] ++ F.take format_string_length
        ++ [num_args]
    let log_file := s.m_log_file ++ [pos]
    match args with
    | [] => ⟨index_file, log_file, table⟩
    | a :: rest => ⟨index_file, pack_args pack log_file a rest, table⟩
  | some i =>
    let pos := i % 256
    let log_file := s.m_log_file ++ [pos]
    match args with
    | [] => ⟨s.m_index_file, log_file, s.m_format_string_table⟩
    | a :: rest => ⟨s.m_index_file, pack_args pack log_file a rest, s.m_format_string_table⟩

/-- One logging call: the literal, its fingerprint and the argument values. -/
structure Call (α : Type) where
  F : List Nat
  H : Nat
  args : List α

/-- A sequence of `log` calls on one logger, in program order. -/
def run {α : Type} (pack : α → List Nat) (s : binary_log) (calls : List (Call α)) : binary_log :=
  calls.foldl (fun st c => log pack st c.F c.H c.args) s

/-- A sample packer, for `uint8_t` values: the value's single byte. -/
def pack_u8 (a : Fin 256) : List Nat := [a.val]

/-! ### Vocabulary of the claims -/

/-- Bytes of the arguments of one call: `pack(a1) ++ pack(a2) ++ ... ++ pack(an)`
in call order. -/
def packed {α : Type} (pack : α → List Nat) (args : List α) : List Nat :=
  (args.map pack).flatten

/-- An index record as the index file layout describes it: slot byte, length
byte, literal bytes, argument count byte. -/
def index_record (slot : Nat) (literal : List Nat) (arg_count : Nat) : List Nat :=
  [slot, literal.length] ++ literal ++ [arg_count]

/-- A log record as the log file layout describes it: slot byte, then the
packed arguments. -/
def log_record {α : Type} (pack : α → List Nat) (slot : Nat) (args : List α) : List Nat :=
  slot :: packed pack args

/-- The calls of a sequence that use a fingerprint no earlier call used (and
that is not in `seen`), in call order: the first occurrences. -/
def first_uses {α : Type} : List Nat → List (Call α) → List (Call α)
  | _, [] => []
  | seen, c :: cs =>
    if c.H ∈ seen then first_uses seen cs else c :: first_uses (c.H :: seen) cs

/-- A format schema as the decoder rebuilds it from one index record. -/
structure Schema where
  literal : List Nat
  arg_count : Nat
deriving DecidableEq, Repr

/-- The index records of the schemas `E`, numbered `k`, `k + 1`, ... in order,
one after the other. -/
def ser_index (k : Nat) : List Schema → List Nat
  | [] => []
  | e :: es => index_record (k % 256) e.literal e.arg_count ++ ser_index (k + 1) es

/-! ### The reference decoder -/

/-- Modelled from the spec: the decoder is an external collaborator and no
reader is part of the repository. Replays the index file: each record
`slot, len, len literal bytes, arg_count` sets the schema of `slot` (the
newest entry is at the head of the table). `fuel` bounds the number of
records. -/
def replay_index : Nat → List Nat → List (Nat × Schema) → Option (List (Nat × Schema))
  | _, [], tbl => some tbl
  | 0, _ :: _, _ => none
  | _ + 1, [_], _ => none
  | fuel + 1, slot :: len :: rest, tbl =>
    if len < rest.length then
      replay_index fuel (rest.drop (len + 1)) ((slot, ⟨rest.take len, rest.getD len 0⟩) :: tbl)
    else none

/-- Modelled from the spec: the schema the replayed table holds for a slot. -/
def lookup_slot (slot : Nat) : List (Nat × Schema) → Option Schema
  | [] => none
  | (k, sch) :: tbl => if k = slot then some sch else lookup_slot slot tbl

/-- Modelled from the spec: reads `n` packed values with the value decoder
`unpack`, which returns the value and the bytes after it. -/
def unpack_args {α : Type} (unpack : List Nat → Option (α × List Nat)) :
    Nat → List Nat → Option (List α × List Nat)
  | 0, bytes => some ([], bytes)
  | n + 1, bytes =>
    match unpack bytes with
    | none => none
    | some (a, rest) =>
      match unpack_args unpack n rest with
      | none => none
      | some (vals, rest2) => some (a :: vals, rest2)

/-- Modelled from the spec: scans the log file record by record: the slot
byte selects the schema, whose argument count says how many values follow.
`fuel` bounds the number of records. -/
def scan_log {α : Type} (unpack : List Nat → Option (α × List Nat)) (tbl : List (Nat × Schema)) :
    Nat → List Nat → Option (List (List Nat × Nat × List α))
  | _, [] => some []
  | 0, _ :: _ => none
  | fuel + 1, slot :: rest =>
    match lookup_slot slot tbl with
    | none => none
    | some sch =>
      match unpack_args unpack sch.arg_count rest with
      | none => none
      | some (vals, rest2) =>
        match scan_log unpack tbl fuel rest2 with
        | none => none
        | some recs => some ((sch.literal, sch.arg_count, vals) :: recs)

/-- Modelled from the spec: the reference decoder: replay the index file into
the slot table, then scan the log file. Every record has at least one byte,
so the file lengths are enough fuel. -/
def decode {α : Type} (unpack : List Nat → Option (α × List Nat)) (index_file log_file : List Nat) :
    Option (List (List Nat × Nat × List α)) :=
  match replay_index index_file.length index_file [] with
  | none => none
  | some tbl => scan_log unpack tbl log_file.length log_file

/-- A sample value decoder for `pack_u8`: one byte is one value. -/
def unpack_u8 : List Nat → Option (Fin 256 × List Nat)
  | [] => none
  | b :: rest => if h : b < 256 then some (⟨b, h⟩, rest) else none

/-- A sample session input: `n` calls without arguments, the `h`-th with the
two-letter literal numbered `h` and fingerprint `h` (`h = 0, 1, ..., n - 1`). -/
def distinct_calls (n : Nat) : List (Call (Fin 256)) :=
  (List.range n).map (fun h => ⟨[65 + h / 16, 65 + h % 16], h, []⟩)

/-- A sample session input, the example of the testable properties with
fingerprints 3 and 9: "x={}" logged with 5, then with 7, then "y={}" logged
with two values. -/
def example_calls : List (Call (Fin 256)) :=
  [⟨[120, 61, 123, 125], 3, [5]⟩, ⟨[120, 61, 123, 125], 3, [7]⟩,
    ⟨[121, 61, 123, 125], 9, [1, 2]⟩]

/-! ### Fixed-width values (`to_byte_array.hpp`) -/

/-- Byte order of the host: which end of an integer object is stored at the
lowest address. -/
inductive ByteOrder where
  | little
  | big
deriving DecidableEq, Repr

/-- The `w` bytes of an unsigned integer, least significant byte first. -/
def le_bytes : Nat → Nat → List Nat
  | 0, _ => []
  | w + 1, v => v % 256 :: le_bytes w (v / 256)

/-- The object representation of a `w`-byte unsigned integer `v` on a host
with the given byte order: the bytes from the lowest address up. -/
def object_representation (order : ByteOrder) (w v : Nat) : List Nat :=
  match order with
  | ByteOrder.little => le_bytes w v
  | ByteOrder.big => (le_bytes w v).reverse

/-- The function `to_byte_array(input)` at a `w`-byte unsigned integer type:
`std::memcpy(ret.data(), &input, sizeof(T))` copies the `sizeof(T) = w` bytes
of the object representation into the returned array. -/
def to_byte_array (order : ByteOrder) (w : Nat) (input : Nat) : List Nat :=
  object_representation order w input

/-- The integer whose bytes, least significant first, are given. -/
def of_le_bytes : List Nat → Nat
  | [] => 0
  | b :: bs => b + 256 * of_le_bytes bs

/-- Reassembles an unsigned integer from its bytes in the given byte order. -/
def of_byte_array (order : ByteOrder) (bytes : List Nat) : Nat :=
  match order with
  | ByteOrder.little => of_le_bytes bytes
  | ByteOrder.big => of_le_bytes bytes.reverse

/-! ## Basic facts about the embedding -/

theorem pack_args_eq {α : Type} (pack : α → List Nat) (file : List Nat) (a : α) (rest : List α) :
    pack_args pack file a rest = file ++ packed pack (a :: rest) := by
  induction rest generalizing file a with
  | nil => simp [pack_args, pack_arg, packed]
  | cons r rs ih =>
    rw [pack_args, ih]
    simp [pack_arg, packed]

theorem log_known {α : Type} (pack : α → List Nat) (s : binary_log) (F : List Nat) (H : Nat)
    (args : List α) (h : H ∈ s.m_format_string_table) :
    log pack s F H args =
      ⟨s.m_index_file,
        s.m_log_file ++ log_record pack (s.m_format_string_table.indexOf H % 256) args,
        s.m_format_string_table⟩ := by
  unfold log
  simp only [set_find, h, if_true]
  cases args with
  | nil => simp [log_record, packed]
  | cons a rest => simp [pack_args_eq, log_record]

theorem log_new {α : Type} (pack : α → List Nat) (s : binary_log) (F : List Nat) (H : Nat)
    (args : List α) (h : H ∉ s.m_format_string_table) :
    log pack s F H args =
      ⟨s.m_index_file ++
          index_record ((set_insert H s.m_format_string_table).indexOf H % 256)
            (F.take (F.length % 256)) (args.length % 256),
        s.m_log_file ++
          log_record pack ((set_insert H s.m_format_string_table).indexOf H % 256) args,
        set_insert H s.m_format_string_table⟩ := by
  unfold log
  simp only [set_find, h, if_false]
  have hlen : (List.take (F.length % 256) F).length = F.length % 256 := by
    rw [List.length_take]; exact Nat.min_eq_left (Nat.mod_le _ _)
  cases args with
  | nil => simp [log_record, packed, index_record, distance, string_length, hlen]
  | cons a rest =>
    simp [pack_args_eq, log_record, index_record, distance, string_length, hlen]

/-! ## The format string table -/

theorem mem_set_insert (H h : Nat) (t : List Nat) : h ∈ set_insert H t ↔ h = H ∨ h ∈ t := by
  induction t with
  | nil => simp [set_insert]
  | cons x xs ih =>
    unfold set_insert
    split_ifs with h1 h2
    · simp
    · subst h2; simp
    · simp only [List.mem_cons, ih]; tauto

theorem set_insert_of_forall_lt (H : Nat) (t : List Nat) (h : ∀ x ∈ t, x < H) :
    set_insert H t = t ++ [H] := by
  induction t with
  | nil => rfl
  | cons x xs ih =>
    have hx : x < H := h x (List.mem_cons_self _ _)
    have h1 : ¬ H < x := by omega
    have h2 : ¬ H = x := by omega
    simp only [set_insert, h1, h2, if_false, List.cons_append]
    rw [ih (fun y hy => h y (List.mem_cons_of_mem _ hy))]

theorem length_set_insert (H : Nat) (t : List Nat) (h : H ∉ t) :
    (set_insert H t).length = t.length + 1 := by
  induction t with
  | nil => rfl
  | cons x xs ih =>
    have hne : ¬ H = x := fun e => h (e ▸ List.mem_cons_self _ _)
    have hxs : H ∉ xs := fun e => h (List.mem_cons_of_mem _ e)
    unfold set_insert
    split_ifs with h1
    · simp
    · simp [ih hxs]

theorem set_insert_sorted (H : Nat) (t : List Nat) (h : t.Sorted (· < ·)) :
    (set_insert H t).Sorted (· < ·) := by
  induction t with
  | nil => simp [set_insert]
  | cons x xs ih =>
    have hx := List.sorted_cons.1 h
    unfold set_insert
    split_ifs with h1 h2
    · exact List.sorted_cons.2 ⟨fun b hb => by
        rcases List.mem_cons.1 hb with e | e
        · omega
        · have := hx.1 b e; omega, h⟩
    · exact h
    · refine List.sorted_cons.2 ⟨fun b hb => ?_, ih hx.2⟩
      rcases (mem_set_insert H b xs).1 hb with e | e
      · omega
      · exact hx.1 b e

theorem indexOf_set_insert_of_forall_lt (H : Nat) (t : List Nat) (h : ∀ x ∈ t, x < H) :
    (set_insert H t).indexOf H = t.length := by
  have hn : H ∉ t := fun e => Nat.lt_irrefl _ (h H e)
  rw [set_insert_of_forall_lt H t h, List.indexOf_append_of_not_mem hn]
  simp

/-! ## Sequences of calls -/

theorem run_nil {α : Type} (pack : α → List Nat) (s : binary_log) : run pack s [] = s := rfl

theorem run_cons {α : Type} (pack : α → List Nat) (s : binary_log) (c : Call α)
    (cs : List (Call α)) : run pack s (c :: cs) = run pack (log pack s c.F c.H c.args) cs := rfl

theorem run_append {α : Type} (pack : α → List Nat) (s : binary_log) (l1 l2 : List (Call α)) :
    run pack s (l1 ++ l2) = run pack (run pack s l1) l2 := by
  simp [run, List.foldl_append]

theorem run_snoc {α : Type} (pack : α → List Nat) (s : binary_log) (l : List (Call α))
    (c : Call α) : run pack s (l ++ [c]) = log pack (run pack s l) c.F c.H c.args := by
  rw [run_append]; rfl

theorem table_sorted_log {α : Type} (pack : α → List Nat) (s : binary_log) (F : List Nat)
    (H : Nat) (args : List α) (h : s.m_format_string_table.Sorted (· < ·)) :
    (log pack s F H args).m_format_string_table.Sorted (· < ·) := by
  by_cases hm : H ∈ s.m_format_string_table
  · rw [log_known pack s F H args hm]; exact h
  · rw [log_new pack s F H args hm]; exact set_insert_sorted H _ h

theorem table_sorted_run {α : Type} (pack : α → List Nat) (s : binary_log)
    (calls : List (Call α)) (h : s.m_format_string_table.Sorted (· < ·)) :
    (run pack s calls).m_format_string_table.Sorted (· < ·) := by
  induction calls generalizing s with
  | nil => exact h
  | cons c cs ih => rw [run_cons]; exact ih _ (table_sorted_log pack s c.F c.H c.args h)

theorem mem_table_log {α : Type} (pack : α → List Nat) (s : binary_log) (F : List Nat)
    (H : Nat) (args : List α) (h : Nat) :
    h ∈ (log pack s F H args).m_format_string_table ↔ h = H ∨ h ∈ s.m_format_string_table := by
  by_cases hm : H ∈ s.m_format_string_table
  · rw [log_known pack s F H args hm]
    constructor
    · intro e; exact Or.inr e
    · rintro (e | e)
      · subst e; exact hm
      · exact e
  · rw [log_new pack s F H args hm]; exact mem_set_insert H h _

theorem mem_table_run {α : Type} (pack : α → List Nat) (s : binary_log)
    (calls : List (Call α)) (h : Nat) :
    h ∈ (run pack s calls).m_format_string_table ↔
      h ∈ s.m_format_string_table ∨ ∃ c ∈ calls, c.H = h := by
  induction calls generalizing s with
  | nil => simp [run_nil]
  | cons c cs ih =>
    rw [run_cons, ih, mem_table_log]
    simp only [List.mem_cons, exists_eq_or_imp]
    constructor
    · rintro ((e | e) | e)
      · exact Or.inr (Or.inl e.symm)
      · exact Or.inl e
      · exact Or.inr (Or.inr e)
    · rintro (e | e | e)
      · exact Or.inl (Or.inr e)
      · exact Or.inl (Or.inl e.symm)
      · exact Or.inr e

theorem table_run_of_sorted {α : Type} (pack : α → List Nat) (s : binary_log)
    (calls : List (Call α))
    (h : (s.m_format_string_table ++ calls.map Call.H).Sorted (· < ·)) :
    (run pack s calls).m_format_string_table = s.m_format_string_table ++ calls.map Call.H := by
  induction calls generalizing s with
  | nil => simp [run_nil]
  | cons c cs ih =>
    have hp := List.pairwise_append.1 h
    have hlt : ∀ x ∈ s.m_format_string_table, x < c.H := fun x hx =>
      hp.2.2 x hx c.H (by simp)
    have hn : c.H ∉ s.m_format_string_table := fun e => Nat.lt_irrefl _ (hlt _ e)
    rw [run_cons]
    have ht : (log pack s c.F c.H c.args).m_format_string_table
        = s.m_format_string_table ++ [c.H] := by
      rw [log_new pack s c.F c.H c.args hn]
      exact set_insert_of_forall_lt _ _ hlt
    rw [ih, ht]
    · simp
    · rw [ht]; simpa using h

theorem map_H_distinct_calls (n : Nat) : (distinct_calls n).map Call.H = List.range n := by
  simp [distinct_calls, List.map_map, Function.comp_def]

theorem table_distinct_calls (pack : Fin 256 → List Nat) (n : Nat) :
    (run pack fresh (distinct_calls n)).m_format_string_table = List.range n := by
  rw [table_run_of_sorted]
  · simp [fresh, map_H_distinct_calls]
  · simpa [fresh, map_H_distinct_calls] using List.sorted_lt_range n

theorem distinct_calls_succ (n : Nat) :
    distinct_calls (n + 1) = distinct_calls n ++ [⟨[65 + n / 16, 65 + n % 16], n, []⟩] := by
  simp [distinct_calls, List.range_succ]

/-! ## Slot numbering -/

/-- C1 (code defect): on a fresh session, logging "x" with fingerprint 5 and
then "y" with fingerprint 3 writes slot byte 0 in both index records: the
second distinct fingerprint (k = 1) gets the slot 0 of its sorted position,
not the slot 1 of its first occurrence. -/
theorem C1_second_fingerprint_gets_slot_zero :
    (run pack_u8 fresh [⟨[120], 5, []⟩, ⟨[121], 3, []⟩]).m_index_file
        = index_record 0 [120] 0 ++ index_record 0 [121] 0
      ∧ (run pack_u8 fresh [⟨[120], 5, []⟩, ⟨[121], 3, []⟩]).m_index_file
        ≠ index_record 0 [120] 0 ++ index_record 1 [121] 0 := by
  decide

/-- C2 (code defect): on a fresh session, logging fingerprint 5, then the
smaller fingerprint 3, then fingerprint 5 again writes the log records with
slot bytes 0, 0, 1: the second record of fingerprint 5 does not start with
the slot byte of its first record. -/
theorem C2_slot_of_known_fingerprint_shifts :
    (run pack_u8 fresh [⟨[120], 5, [7]⟩, ⟨[121], 3, []⟩, ⟨[120], 5, [8]⟩]).m_log_file
      = log_record pack_u8 0 [7] ++ log_record pack_u8 0 [] ++ log_record pack_u8 1 [8] := by
  decide

/-! ## The reference decoder on well-formed files -/

theorem ser_index_append (k : Nat) (E : List Schema) (e : Schema) :
    ser_index k (E ++ [e])
      = ser_index k E ++ index_record ((k + E.length) % 256) e.literal e.arg_count := by
  induction E generalizing k with
  | nil => simp [ser_index]
  | cons x xs ih =>
    rw [List.cons_append, ser_index, ser_index, ih, List.length_cons, List.append_assoc,
      show k + 1 + xs.length = k + (xs.length + 1) by omega]

theorem length_le_ser_index (k : Nat) (E : List Schema) : E.length ≤ (ser_index k E).length := by
  induction E generalizing k with
  | nil => simp
  | cons x xs ih =>
    have := ih (k + 1)
    have h1 : 1 ≤ (index_record (k % 256) x.literal x.arg_count).length := by
      simp [index_record]
    simp only [ser_index, List.length_append, List.length_cons]
    omega

theorem replay_index_record (fuel slot : Nat) (e : Schema) (rest : List Nat)
    (tbl : List (Nat × Schema)) :
    replay_index (fuel + 1) (index_record slot e.literal e.arg_count ++ rest) tbl
      = replay_index fuel rest ((slot, e) :: tbl) := by
  have h1 : e.literal.length < (e.literal ++ e.arg_count :: rest).length := by
    simp
  have h2 : List.take e.literal.length (e.literal ++ e.arg_count :: rest) = e.literal :=
    List.take_left _ _
  have h3 : (e.literal ++ e.arg_count :: rest).getD e.literal.length 0 = e.arg_count := by
    rw [List.getD_eq_getElem?_getD, List.getElem?_append_right (Nat.le_refl _)]
    simp
  have h4 : List.drop (e.literal.length + 1) (e.literal ++ e.arg_count :: rest) = rest := by
    rw [← List.drop_drop, List.drop_left]; rfl
  have hrec : index_record slot e.literal e.arg_count ++ rest
      = slot :: e.literal.length :: (e.literal ++ e.arg_count :: rest) := by
    simp [index_record]
  rw [hrec, replay_index, if_pos h1, h2, h3, h4]

theorem replay_ser_index (E : List Schema) (k fuel : Nat) (tbl : List (Nat × Schema))
    (hfuel : E.length ≤ fuel) (hk : k + E.length ≤ 256) :
    ∃ tbl2, replay_index fuel (ser_index k E) tbl = some tbl2 ∧
      (∀ j, j < E.length → lookup_slot (k + j) tbl2 = E[j]?) ∧
      (∀ x, x < k → lookup_slot x tbl2 = lookup_slot x tbl) := by
  induction E generalizing k fuel tbl with
  | nil =>
    refine ⟨tbl, ?_, ?_, ?_⟩
    · cases fuel <;> rfl
    · intro j hj; simp at hj
    · intro x _; rfl
  | cons e es ih =>
    obtain ⟨f, rfl⟩ : ∃ f, fuel = f + 1 := ⟨fuel - 1, by simp at hfuel; omega⟩
    simp only [List.length_cons] at hfuel hk
    have hkmod : k % 256 = k := Nat.mod_eq_of_lt (by omega)
    obtain ⟨tbl2, h1, h2, h3⟩ := ih (k + 1) f ((k, e) :: tbl) (by omega) (by omega)
    refine ⟨tbl2, ?_, ?_, ?_⟩
    · rw [ser_index, hkmod, replay_index_record]; exact h1
    · intro j hj
      cases j with
      | zero =>
        rw [Nat.add_zero, h3 k (by omega)]
        simp [lookup_slot]
      | succ j =>
        have := h2 j (by simp at hj; omega)
        rw [show k + (j + 1) = k + 1 + j by omega, this]
        simp
    · intro x hx
      rw [h3 x (by omega)]
      have : ¬ k = x := by omega
      simp [lookup_slot, this]

theorem unpack_args_packed {α : Type} (pack : α → List Nat)
    (unpack : List Nat → Option (α × List Nat))
    (hunpack : ∀ a rest, unpack (pack a ++ rest) = some (a, rest))
    (args : List α) (rest : List Nat) :
    unpack_args unpack args.length (packed pack args ++ rest) = some (args, rest) := by
  induction args with
  | nil => simp [unpack_args, packed]
  | cons a vals ih =>
    have hp : packed pack (a :: vals) ++ rest = pack a ++ (packed pack vals ++ rest) := by
      simp [packed]
    simp only [List.length_cons, unpack_args, hp, hunpack, ih]

theorem scan_log_records {α : Type} (pack : α → List Nat)
    (unpack : List Nat → Option (α × List Nat))
    (hunpack : ∀ a rest, unpack (pack a ++ rest) = some (a, rest))
    (tbl : List (Nat × Schema)) (slot : Call α → Nat) (l : List (Call α)) (fuel : Nat)
    (hfuel : l.length ≤ fuel)
    (hslot : ∀ c ∈ l, lookup_slot (slot c) tbl = some ⟨c.F, c.args.length⟩) :
    scan_log unpack tbl fuel ((l.map (fun c => log_record pack (slot c) c.args)).flatten)
      = some (l.map (fun c => (c.F, c.args.length, c.args))) := by
  induction l generalizing fuel with
  | nil => cases fuel <;> rfl
  | cons c cs ih =>
    obtain ⟨f, rfl⟩ : ∃ f, fuel = f + 1 := ⟨fuel - 1, by simp at hfuel; omega⟩
    have hc := hslot c (List.mem_cons_self _ _)
    have hcs := ih f (by simp at hfuel; omega) (fun d hd => hslot d (List.mem_cons_of_mem _ hd))
    have hrec : (List.map (fun c => log_record pack (slot c) c.args) (c :: cs)).flatten
        = slot c :: (packed pack c.args
            ++ (List.map (fun c => log_record pack (slot c) c.args) cs).flatten) := by
      simp [log_record]
    rw [hrec, scan_log]
    simp only [hc, unpack_args_packed pack unpack hunpack, hcs, List.map_cons]

theorem length_le_flatten_log_records {α : Type} (pack : α → List Nat) (slot : Call α → Nat)
    (l : List (Call α)) :
    l.length ≤ ((l.map (fun c => log_record pack (slot c) c.args)).flatten).length := by
  induction l with
  | nil => simp
  | cons c cs ih =>
    simp only [List.map_cons, List.flatten_cons, List.length_append]
    have : 1 ≤ (log_record pack (slot c) c.args).length := by simp [log_record]
    simp only [List.length_cons]
    omega

/-! ## Sessions whose fingerprints first occur in increasing order -/

theorem mem_table_run_fresh {α : Type} (pack : α → List Nat) (calls : List (Call α)) (h : Nat) :
    h ∈ (run pack fresh calls).m_format_string_table ↔ ∃ c ∈ calls, c.H = h := by
  rw [mem_table_run]; simp [fresh]

theorem table_sorted_run_fresh {α : Type} (pack : α → List Nat) (calls : List (Call α)) :
    (run pack fresh calls).m_format_string_table.Sorted (· < ·) :=
  table_sorted_run pack fresh calls (by simp [fresh])

theorem files_of_increasing {α : Type} (pack : α → List Nat) (calls : List (Call α))
    (hbounds : ∀ c ∈ calls, c.F.length ≤ 255 ∧ c.args.length ≤ 255)
    (hcons : ∀ c ∈ calls, ∀ d ∈ calls, c.H = d.H → c.F = d.F ∧ c.args.length = d.args.length)
    (hincr : ∀ pre c post, calls = pre ++ c :: post →
      (∀ d ∈ pre, d.H ≠ c.H) → ∀ d ∈ pre, d.H < c.H) :
    ∃ E : List Schema,
      E.length = (run pack fresh calls).m_format_string_table.length ∧
      (run pack fresh calls).m_index_file = ser_index 0 E ∧
      (∀ c ∈ calls, E[(run pack fresh calls).m_format_string_table.indexOf c.H]?
          = some ⟨c.F, c.args.length⟩) ∧
      (run pack fresh calls).m_log_file
        = (calls.map (fun c => log_record pack
            ((run pack fresh calls).m_format_string_table.indexOf c.H % 256) c.args)).flatten := by
  induction calls using List.reverseRecOn with
  | nil => exact ⟨[], rfl, rfl, by simp, rfl⟩
  | append_singleton l a ih =>
    obtain ⟨E, hlen, hidx, hE, hlog⟩ := ih
      (fun c hc => hbounds c (List.mem_append_left _ hc))
      (fun c hc d hd => hcons c (List.mem_append_left _ hc) d (List.mem_append_left _ hd))
      (fun pre c post e => hincr pre c (post ++ [a]) (by rw [e]; simp))
    have ha := hbounds a (by simp)
    rw [run_snoc]
    by_cases hm : a.H ∈ (run pack fresh l).m_format_string_table
    · rw [log_known pack _ a.F a.H a.args hm]
      refine ⟨E, hlen, hidx, ?_, ?_⟩
      · intro c hc
        rcases List.mem_append.1 hc with hc | hc
        · exact hE c hc
        · obtain rfl : c = a := by simpa using hc
          obtain ⟨d, hd, hdH⟩ := (mem_table_run_fresh pack l c.H).1 hm
          have := hcons d (List.mem_append_left _ hd) c (by simp) hdH
          rw [← hdH, hE d hd, this.1, this.2]
      · simp only [List.map_append, List.flatten_append, hlog, List.map_cons, List.map_nil,
          List.flatten_cons, List.flatten_nil, List.append_nil]
    · have hne : ∀ d ∈ l, d.H ≠ a.H := fun d hd e =>
        hm ((mem_table_run_fresh pack l a.H).2 ⟨d, hd, e⟩)
      have hlt : ∀ x ∈ (run pack fresh l).m_format_string_table, x < a.H := by
        intro x hx
        obtain ⟨d, hd, rfl⟩ := (mem_table_run_fresh pack l x).1 hx
        exact hincr l a [] rfl hne d hd
      have hold : ∀ c ∈ l,
          (set_insert a.H (run pack fresh l).m_format_string_table).indexOf c.H
            = (run pack fresh l).m_format_string_table.indexOf c.H := by
        intro c hc
        rw [set_insert_of_forall_lt _ _ hlt]
        exact List.indexOf_append_of_mem ((mem_table_run_fresh pack l c.H).2 ⟨c, hc, rfl⟩)
      have hnew := indexOf_set_insert_of_forall_lt _ _ hlt
      have htake : List.take (a.F.length % 256) a.F = a.F := by
        rw [Nat.mod_eq_of_lt (by omega)]; exact List.take_of_length_le (Nat.le_refl _)
      have hargs : a.args.length % 256 = a.args.length := Nat.mod_eq_of_lt (by omega)
      rw [log_new pack _ a.F a.H a.args hm]
      refine ⟨E ++ [⟨a.F, a.args.length⟩], ?_, ?_, ?_, ?_⟩
      · simp [length_set_insert _ _ hm, hlen]
      · simp only [hidx, ser_index_append, hnew, htake, hargs, Nat.zero_add, hlen]
      · intro c hc
        rcases List.mem_append.1 hc with hc | hc
        · have hlt2 : (run pack fresh l).m_format_string_table.indexOf c.H < E.length := by
            rw [hlen]
            exact List.indexOf_lt_length.2 ((mem_table_run_fresh pack l c.H).2 ⟨c, hc, rfl⟩)
          simp only [hold c hc]
          rw [List.getElem?_append_left hlt2]
          exact hE c hc
        · obtain rfl : c = a := by simpa using hc
          simp only [hnew]
          rw [List.getElem?_append_right (by omega), ← hlen]
          simp
      · simp only [List.map_append, List.flatten_append, List.map_cons, List.map_nil,
          List.flatten_cons, List.flatten_nil, List.append_nil, hlog]
        congr 2
        exact List.map_congr_left (fun c hc => by simp only [hold c hc])

/-! ## First occurrences -/

theorem first_uses_congr {α : Type} (l : List (Call α)) (s1 s2 : List Nat)
    (h : ∀ x, x ∈ s1 ↔ x ∈ s2) : first_uses s1 l = first_uses s2 l := by
  induction l generalizing s1 s2 with
  | nil => rfl
  | cons c cs ih =>
    by_cases hc : c.H ∈ s1
    · have hc2 : c.H ∈ s2 := (h _).1 hc
      simp only [first_uses, hc, hc2, if_true]
      exact ih s1 s2 h
    · have hc2 : c.H ∉ s2 := fun e => hc ((h _).2 e)
      simp only [first_uses, hc, hc2, if_false]
      rw [ih (c.H :: s1) (c.H :: s2) (fun x => by simp [h x])]

theorem first_uses_append {α : Type} (l1 l2 : List (Call α)) (seen : List Nat) :
    first_uses seen (l1 ++ l2)
      = first_uses seen l1 ++ first_uses (l1.map Call.H ++ seen) l2 := by
  induction l1 generalizing seen with
  | nil => rfl
  | cons c cs ih =>
    by_cases hc : c.H ∈ seen
    · rw [List.cons_append, first_uses, first_uses, if_pos hc, if_pos hc, ih, List.map_cons]
      congr 1
      apply first_uses_congr
      intro x
      have hx : x = c.H → x ∈ seen := fun e => e ▸ hc
      simp only [List.mem_append, List.mem_cons]
      tauto
    · rw [List.cons_append, first_uses, first_uses, if_neg hc, if_neg hc, ih, List.map_cons,
        List.cons_append]
      congr 2
      apply first_uses_congr
      intro x
      simp only [List.mem_append, List.mem_cons]
      tauto

theorem mem_of_mem_first_uses {α : Type} (l : List (Call α)) (seen : List Nat) (c : Call α)
    (h : c ∈ first_uses seen l) : c ∈ l := by
  induction l generalizing seen with
  | nil => simp [first_uses] at h
  | cons d ds ih =>
    unfold first_uses at h
    split_ifs at h with hd
    · exact List.mem_cons_of_mem _ (ih seen h)
    · rcases List.mem_cons.1 h with e | e
      · exact e ▸ List.mem_cons_self _ _
      · exact List.mem_cons_of_mem _ (ih _ e)

theorem H_mem_first_uses {α : Type} (l : List (Call α)) (seen : List Nat) (d : Call α)
    (h : d ∈ l) : d.H ∈ seen ∨ d.H ∈ (first_uses seen l).map Call.H := by
  induction l generalizing seen with
  | nil => simp at h
  | cons c cs ih =>
    unfold first_uses
    rcases List.mem_cons.1 h with e | e
    · subst e
      split_ifs with hd
      · exact Or.inl hd
      · exact Or.inr (by simp)
    · split_ifs with hc
      · exact ih seen e
      · rcases ih (c.H :: seen) e with e2 | e2
        · rcases List.mem_cons.1 e2 with e3 | e3
          · exact Or.inr (by simp [e3])
          · exact Or.inl e3
        · exact Or.inr (by simp only [List.map_cons]; exact List.mem_cons_of_mem _ e2)

theorem H_not_mem_seen_of_first_uses {α : Type} (l : List (Call α)) (seen : List Nat)
    (c : Call α) (h : c ∈ first_uses seen l) : c.H ∉ seen := by
  induction l generalizing seen with
  | nil => simp [first_uses] at h
  | cons d ds ih =>
    unfold first_uses at h
    split_ifs at h with hd
    · exact ih seen h
    · rcases List.mem_cons.1 h with e | e
      · exact e ▸ hd
      · exact fun e2 => ih _ e (List.mem_cons_of_mem _ e2)

theorem nodup_first_uses {α : Type} (l : List (Call α)) (seen : List Nat) :
    ((first_uses seen l).map Call.H).Nodup := by
  induction l generalizing seen with
  | nil => simp [first_uses]
  | cons d ds ih =>
    unfold first_uses
    split_ifs with hd
    · exact ih seen
    · rw [List.map_cons, List.nodup_cons]
      refine ⟨fun e => ?_, ih _⟩
      obtain ⟨c, hc, hcH⟩ := List.mem_map.1 e
      exact H_not_mem_seen_of_first_uses ds _ c hc (by simp [hcH])

theorem increasing_of_sorted_first_uses {α : Type} (calls : List (Call α))
    (h : ((first_uses [] calls).map Call.H).Sorted (· < ·)) :
    ∀ pre c post, calls = pre ++ c :: post →
      (∀ d ∈ pre, d.H ≠ c.H) → ∀ d ∈ pre, d.H < c.H := by
  intro pre c post e hne d hd
  have hc : c.H ∉ pre.map Call.H ++ [] := by
    simp only [List.append_nil, List.mem_map, not_exists, not_and]
    exact fun x hx => hne x hx
  rw [e, first_uses_append, first_uses, if_neg hc, List.map_append, List.map_cons] at h
  have hp := List.pairwise_append.1 h
  rcases H_mem_first_uses pre [] d hd with e2 | e2
  · simp at e2
  · exact hp.2.2 _ e2 _ (List.mem_cons_self _ _)

theorem length_table_run {α : Type} (pack : α → List Nat) (s : binary_log)
    (calls : List (Call α)) (seen : List Nat)
    (h : ∀ x, x ∈ seen ↔ x ∈ s.m_format_string_table) :
    (run pack s calls).m_format_string_table.length
      = s.m_format_string_table.length + (first_uses seen calls).length := by
  induction calls generalizing s seen with
  | nil => simp [run_nil, first_uses]
  | cons c cs ih =>
    rw [run_cons]
    by_cases hc : c.H ∈ s.m_format_string_table
    · have hc2 : c.H ∈ seen := (h _).2 hc
      rw [ih _ seen (by rw [log_known pack s c.F c.H c.args hc]; exact h)]
      simp only [first_uses, hc2, if_true]
      rw [log_known pack s c.F c.H c.args hc]
    · have hc2 : c.H ∉ seen := fun e => hc ((h _).1 e)
      rw [ih _ (c.H :: seen) (fun x => by
        rw [log_new pack s c.F c.H c.args hc]
        simp only [List.mem_cons, mem_set_insert, h x])]
      simp only [first_uses, hc2, if_false, List.length_cons]
      rw [log_new pack s c.F c.H c.args hc]
      simp only [length_set_insert _ _ hc]
      omega

/-! ## Round trip -/

theorem unpack_u8_pack_u8 (a : Fin 256) (rest : List Nat) :
    unpack_u8 (pack_u8 a ++ rest) = some (a, rest) := by
  simp [unpack_u8, pack_u8]

/-- C3 (as stated, refuted): with the one-byte packer, the reference decoder
does not return the calls of a fresh session (a) when two distinct literals
share fingerprint 7, (b) when fingerprint 7 is logged with one and then two
arguments, (c) when fingerprint 5 is followed by the smaller fingerprint 3. -/
theorem C3_reference_decoder_misreads :
    decode unpack_u8
        (run pack_u8 fresh [⟨[120], 7, [1]⟩, ⟨[121], 7, [2]⟩]).m_index_file
        (run pack_u8 fresh [⟨[120], 7, [1]⟩, ⟨[121], 7, [2]⟩]).m_log_file
      ≠ some [([120], 1, [1]), ([121], 1, [2])]
    ∧ decode unpack_u8
        (run pack_u8 fresh [⟨[120], 7, [1]⟩, ⟨[120], 7, [1, 2]⟩]).m_index_file
        (run pack_u8 fresh [⟨[120], 7, [1]⟩, ⟨[120], 7, [1, 2]⟩]).m_log_file
      ≠ some [([120], 1, [1]), ([120], 2, [1, 2])]
    ∧ decode unpack_u8
        (run pack_u8 fresh [⟨[120], 5, [1]⟩, ⟨[121], 3, [2]⟩]).m_index_file
        (run pack_u8 fresh [⟨[120], 5, [1]⟩, ⟨[121], 3, [2]⟩]).m_log_file
      ≠ some [([120], 1, [1]), ([121], 1, [2])] :=
  ⟨by decide, by decide, by decide⟩

/-- C3 (amended): round trip. For every sequence of log calls on a fresh
session with at most 256 distinct fingerprints, literals of at most 255
bytes, at most 255 arguments each and a prefix-decodable packer, in which
calls with the same fingerprint have the same literal and the same number of
arguments and the distinct fingerprints first occur in increasing numeric
order, the reference decoder returns, for the i-th call, exactly that call's
literal, argument count and argument values. -/
theorem C3_round_trip {α : Type} (pack : α → List Nat)
    (unpack : List Nat → Option (α × List Nat)) (calls : List (Call α))
    (hunpack : ∀ a rest, unpack (pack a ++ rest) = some (a, rest))
    (hbounds : ∀ c ∈ calls, c.F.length ≤ 255 ∧ c.args.length ≤ 255)
    (hdistinct : (first_uses [] calls).length ≤ 256)
    (hcons : ∀ c ∈ calls, ∀ d ∈ calls, c.H = d.H → c.F = d.F ∧ c.args.length = d.args.length)
    (hincr : ((first_uses [] calls).map Call.H).Sorted (· < ·)) :
    decode unpack (run pack fresh calls).m_index_file (run pack fresh calls).m_log_file
      = some (calls.map (fun c => (c.F, c.args.length, c.args))) := by
  obtain ⟨E, hlen, hidx, hE, hlog⟩ :=
    files_of_increasing pack calls hbounds hcons (increasing_of_sorted_first_uses calls hincr)
  have htl : (run pack fresh calls).m_format_string_table.length
      = (first_uses [] calls).length := by
    have := length_table_run pack fresh calls [] (by simp [fresh])
    simpa [fresh] using this
  obtain ⟨tbl, hrep, hlook, _⟩ :=
    replay_ser_index E 0 (ser_index 0 E).length [] (length_le_ser_index 0 E) (by omega)
  unfold decode
  rw [hidx, hrep]
  simp only
  rw [hlog]
  apply scan_log_records pack unpack hunpack tbl _ calls _
    (length_le_flatten_log_records pack _ calls)
  intro c hc
  have hi : (run pack fresh calls).m_format_string_table.indexOf c.H
      < (run pack fresh calls).m_format_string_table.length :=
    List.indexOf_lt_length.2 ((mem_table_run_fresh pack calls c.H).2 ⟨c, hc, rfl⟩)
  have := hlook _ (by omega : (run pack fresh calls).m_format_string_table.indexOf c.H < E.length)
  rw [Nat.zero_add] at this
  rw [Nat.mod_eq_of_lt (by omega), this]
  exact hE c hc

/-- C3 (amended), at the sample session: fingerprints 3, 3, 9 with the
one-byte packer decode to the three calls. -/
theorem C3_round_trip_witness :
    ((first_uses [] example_calls).map Call.H).Sorted (· < ·)
    ∧ decode unpack_u8 (run pack_u8 fresh example_calls).m_index_file
        (run pack_u8 fresh example_calls).m_log_file
      = some [([120, 61, 123, 125], 1, [5]), ([120, 61, 123, 125], 1, [7]),
          ([121, 61, 123, 125], 2, [1, 2])] :=
  ⟨by decide,
    C3_round_trip pack_u8 unpack_u8 example_calls unpack_u8_pack_u8 (by decide) (by decide)
      (by decide) (by decide)⟩

/-! ## Capacity -/

theorem log_greatest {α : Type} (pack : α → List Nat) (s : binary_log) (F : List Nat) (H : Nat)
    (args : List α) (h : ∀ x ∈ s.m_format_string_table, x < H) :
    log pack s F H args =
      ⟨s.m_index_file ++
          index_record (s.m_format_string_table.length % 256)
            (F.take (F.length % 256)) (args.length % 256),
        s.m_log_file ++ log_record pack (s.m_format_string_table.length % 256) args,
        s.m_format_string_table ++ [H]⟩ := by
  have hn : H ∉ s.m_format_string_table := fun e => Nat.lt_irrefl _ (h H e)
  rw [log_new pack s F H args hn, indexOf_set_insert_of_forall_lt _ _ h,
    set_insert_of_forall_lt _ _ h]

/-- C4 (as stated, refuted): on a fresh session, after 256 calls with the
fingerprints 0 to 255, the call with the 257th fingerprint 256 is carried
out like the others: the table holds 257 fingerprints, the index file gets
its record and the log file gets a record, both with slot byte 0, the
position 256 of the fingerprint wrapped to one byte. -/
theorem C4_257th_fingerprint_wraps_to_slot_zero :
    (run pack_u8 fresh (distinct_calls 257)).m_format_string_table = List.range 257
    ∧ distance (run pack_u8 fresh (distinct_calls 257)).m_format_string_table 256 = 256
    ∧ (run pack_u8 fresh (distinct_calls 257)).m_log_file
        = (run pack_u8 fresh (distinct_calls 256)).m_log_file ++ [0]
    ∧ (run pack_u8 fresh (distinct_calls 257)).m_index_file
        = (run pack_u8 fresh (distinct_calls 256)).m_index_file ++ [0, 2, 81, 65, 0] := by
  have ht := table_distinct_calls pack_u8 256
  have hlt : ∀ x ∈ (run pack_u8 fresh (distinct_calls 256)).m_format_string_table, x < 256 := by
    intro x hx; rw [ht] at hx; exact List.mem_range.1 hx
  have hrun : run pack_u8 fresh (distinct_calls 257)
      = log pack_u8 (run pack_u8 fresh (distinct_calls 256)) [81, 65] 256 [] := by
    rw [distinct_calls_succ 256, run_snoc]
  have hlen : (run pack_u8 fresh (distinct_calls 256)).m_format_string_table.length = 256 := by
    rw [ht]; exact List.length_range 256
  rw [hrun, log_greatest pack_u8 _ _ _ _ hlt, hlen]
  refine ⟨?_, ?_, ?_, ?_⟩
  · simp only [ht]; exact (List.range_succ 256).symm
  · simp only [ht, distance]
    rw [List.indexOf_append_of_not_mem (by simp)]
    simp
  · simp [log_record, packed]
  · simp [index_record]

/-- C4 (amended): there is no capacity error. Whatever the number of
fingerprints already in the table (256 or more included), a call with a new
fingerprint adds it to the table and appends an index record and a log
record; their slot byte is the position of the fingerprint in the sorted
table reduced modulo 256, which is 0 when the table held 256 fingerprints,
all smaller than the new one. -/
theorem C4_no_capacity_error {α : Type} (pack : α → List Nat) (s : binary_log) (F : List Nat)
    (H : Nat) (args : List α) (hnew : H ∉ s.m_format_string_table) :
    (log pack s F H args).m_format_string_table.length = s.m_format_string_table.length + 1
    ∧ (log pack s F H args).m_log_file
        = s.m_log_file
          ++ log_record pack (distance (log pack s F H args).m_format_string_table H % 256) args
    ∧ (log pack s F H args).m_index_file
        = s.m_index_file
          ++ index_record (distance (log pack s F H args).m_format_string_table H % 256)
              (F.take (F.length % 256)) (args.length % 256)
    ∧ (s.m_format_string_table.length = 256 → (∀ x ∈ s.m_format_string_table, x < H) →
        distance (log pack s F H args).m_format_string_table H % 256 = 0) := by
  rw [log_new pack s F H args hnew]
  refine ⟨length_set_insert _ _ hnew, rfl, rfl, ?_⟩
  intro hlen hlt
  simp only [distance]
  rw [indexOf_set_insert_of_forall_lt _ _ hlt, hlen]

/-- C4 (amended), at the session that has logged the fingerprints 0 to 255:
the call with fingerprint 256 makes the table 257 long and writes slot
byte 0. -/
theorem C4_no_capacity_error_witness :
    256 ∉ (run pack_u8 fresh (distinct_calls 256)).m_format_string_table
    ∧ (log pack_u8 (run pack_u8 fresh (distinct_calls 256)) [81, 65] 256
        []).m_format_string_table.length = 257
    ∧ distance (log pack_u8 (run pack_u8 fresh (distinct_calls 256)) [81, 65] 256
        []).m_format_string_table 256 % 256 = 0 :=
  have ht := table_distinct_calls pack_u8 256
  have hnew : 256 ∉ (run pack_u8 fresh (distinct_calls 256)).m_format_string_table := by
    rw [ht]; simp
  have h := C4_no_capacity_error pack_u8 (run pack_u8 fresh (distinct_calls 256)) [81, 65] 256
    [] hnew
  ⟨hnew, by rw [h.1, ht]; simp, h.2.2.2 (by rw [ht]; simp)
    (fun x hx => by rw [ht] at hx; exact List.mem_range.1 hx)⟩

/-! ## Fingerprint collisions and argument counts -/

/-- C5 (as stated, refuted): on a fresh session, logging the literal "x" and
then the distinct literal "y", both with fingerprint 7, carries out the
second call: the index file holds the record of "x" alone and the log file
holds two records with the slot byte 0 of "x". -/
theorem C5_collision_is_not_detected :
    (run pack_u8 fresh [⟨[120], 7, []⟩, ⟨[121], 7, []⟩]).m_index_file = index_record 0 [120] 0
    ∧ (run pack_u8 fresh [⟨[120], 7, []⟩, ⟨[121], 7, []⟩]).m_log_file
        = log_record pack_u8 0 [] ++ log_record pack_u8 0 [] := by
  decide

/-- C5 (amended): literals are not compared. For every session state, when
a literal F1 is logged with fingerprint H and then any literal F2 is logged
with H, the second call leaves the index file and the table unchanged and
appends a log record with the slot byte of the record the first call
wrote. -/
theorem C5_same_fingerprint_shares_slot {α : Type} (pack : α → List Nat) (s : binary_log)
    (F1 F2 : List Nat) (H : Nat) (args1 args2 : List α) :
    ∃ slot,
      (log pack s F1 H args1).m_log_file = s.m_log_file ++ log_record pack slot args1
      ∧ log pack (log pack s F1 H args1) F2 H args2
        = ⟨(log pack s F1 H args1).m_index_file,
            (log pack s F1 H args1).m_log_file ++ log_record pack slot args2,
            (log pack s F1 H args1).m_format_string_table⟩ := by
  have hmem : H ∈ (log pack s F1 H args1).m_format_string_table :=
    (mem_table_log pack s F1 H args1 H).2 (Or.inl rfl)
  refine ⟨(log pack s F1 H args1).m_format_string_table.indexOf H % 256, ?_,
    log_known pack _ F2 H args2 hmem⟩
  by_cases hm : H ∈ s.m_format_string_table
  · rw [log_known pack s F1 H args1 hm]
  · rw [log_new pack s F1 H args1 hm]

/-- C6 (as stated, refuted): on a fresh session, logging "x" with
fingerprint 7 and one argument, then again with two arguments, writes one
index record with argument count 1 and a second log record with two packed
values. -/
theorem C6_argument_count_mismatch :
    (run pack_u8 fresh [⟨[120], 7, [1]⟩, ⟨[120], 7, [1, 2]⟩]).m_index_file
        = index_record 0 [120] 1
    ∧ (run pack_u8 fresh [⟨[120], 7, [1]⟩, ⟨[120], 7, [1, 2]⟩]).m_log_file
        = log_record pack_u8 0 [1] ++ log_record pack_u8 0 [1, 2] := by
  decide

/-- C6 (amended): argument counts. When a call registers a new fingerprint
with at most 255 arguments, the arg_count byte of the index record it writes
is the number of values packed in its log record. A later call with that
fingerprint writes no index record and packs as many values as it has
arguments itself, whatever the arg_count byte says. -/
theorem C6_argument_count_of_registering_call {α : Type} (pack : α → List Nat)
    (s : binary_log) (F : List Nat) (H : Nat) (args1 args2 : List α)
    (hnew : H ∉ s.m_format_string_table) (hn : args1.length ≤ 255) :
    ∃ slot literal,
      (log pack s F H args1).m_index_file
        = s.m_index_file ++ index_record slot literal args1.length
      ∧ (log pack s F H args1).m_log_file = s.m_log_file ++ log_record pack slot args1
      ∧ (log pack (log pack s F H args1) F H args2).m_index_file
        = s.m_index_file ++ index_record slot literal args1.length
      ∧ (log pack (log pack s F H args1) F H args2).m_log_file
        = s.m_log_file ++ log_record pack slot args1 ++ log_record pack slot args2 := by
  have hmem : H ∈ (log pack s F H args1).m_format_string_table :=
    (mem_table_log pack s F H args1 H).2 (Or.inl rfl)
  rw [log_known pack _ F H args2 hmem, log_new pack s F H args1 hnew,
    Nat.mod_eq_of_lt (by omega : args1.length < 256)]
  exact ⟨_, _, rfl, rfl, rfl, rfl⟩

/-- C6 (amended), at a fresh session: "x" with fingerprint 7 logged with one
argument and then with two. -/
theorem C6_argument_count_of_registering_call_witness :
    ∃ slot literal,
      (log pack_u8 fresh [120] 7 [1]).m_index_file
        = fresh.m_index_file ++ index_record slot literal 1
      ∧ (log pack_u8 fresh [120] 7 [1]).m_log_file
        = fresh.m_log_file ++ log_record pack_u8 slot [1]
      ∧ (log pack_u8 (log pack_u8 fresh [120] 7 [1]) [120] 7 [1, 2]).m_index_file
        = fresh.m_index_file ++ index_record slot literal 1
      ∧ (log pack_u8 (log pack_u8 fresh [120] 7 [1]) [120] 7 [1, 2]).m_log_file
        = fresh.m_log_file ++ log_record pack_u8 slot [1] ++ log_record pack_u8 slot [1, 2] :=
  C6_argument_count_of_registering_call pack_u8 fresh [120] 7 [1] [1, 2] (by decide) (by decide)

/-! ## The index file -/

theorem index_run {α : Type} (pack : α → List Nat) (s : binary_log) (calls : List (Call α))
    (seen : List Nat) (h : ∀ x, x ∈ seen ↔ x ∈ s.m_format_string_table)
    (hbounds : ∀ c ∈ calls, c.F.length ≤ 255 ∧ c.args.length ≤ 255) :
    ∃ slots : List Nat, slots.length = (first_uses seen calls).length ∧
      (∀ x ∈ slots, x < 256) ∧
      (run pack s calls).m_index_file
        = s.m_index_file ++
          (List.zipWith (fun slot c => index_record slot c.F c.args.length) slots
            (first_uses seen calls)).flatten := by
  induction calls generalizing s seen with
  | nil => exact ⟨[], rfl, by simp, by simp [run_nil, first_uses]⟩
  | cons c cs ih =>
    have hcs : ∀ d ∈ cs, d.F.length ≤ 255 ∧ d.args.length ≤ 255 :=
      fun d hd => hbounds d (List.mem_cons_of_mem _ hd)
    have hc := hbounds c (List.mem_cons_self _ _)
    rw [run_cons]
    by_cases hm : c.H ∈ s.m_format_string_table
    · have hm2 : c.H ∈ seen := (h _).2 hm
      obtain ⟨slots, h1, h2, h3⟩ :=
        ih (log pack s c.F c.H c.args) seen
          (by rw [log_known pack s c.F c.H c.args hm]; exact h) hcs
      refine ⟨slots, ?_, h2, ?_⟩
      · rw [h1, first_uses, if_pos hm2]
      · rw [h3, first_uses, if_pos hm2, log_known pack s c.F c.H c.args hm]
    · have hm2 : c.H ∉ seen := fun e => hm ((h _).1 e)
      obtain ⟨slots, h1, h2, h3⟩ :=
        ih (log pack s c.F c.H c.args) (c.H :: seen)
          (fun x => by
            rw [log_new pack s c.F c.H c.args hm]
            simp only [List.mem_cons, mem_set_insert, h x]) hcs
      have htake : List.take (c.F.length % 256) c.F = c.F := by
        rw [Nat.mod_eq_of_lt (by omega)]; exact List.take_of_length_le (Nat.le_refl _)
      have hargs : c.args.length % 256 = c.args.length := Nat.mod_eq_of_lt (by omega)
      refine ⟨((set_insert c.H s.m_format_string_table).indexOf c.H % 256) :: slots, ?_, ?_, ?_⟩
      · rw [first_uses, if_neg hm2, List.length_cons, List.length_cons, h1]
      · intro x hx
        rcases List.mem_cons.1 hx with e | e
        · rw [e]; exact Nat.mod_lt _ (by decide)
        · exact h2 x e
      · rw [h3, first_uses, if_neg hm2, log_new pack s c.F c.H c.args hm, htake, hargs]
        simp only [List.zipWith_cons_cons, List.flatten_cons, List.append_assoc]

/-- C7 (as stated, refuted): on a fresh session, a call with a literal of
256 bytes writes the index record 0, 0, 0: its length byte is 0 and it holds
no byte of the literal. -/
theorem C7_record_of_long_literal :
    (run pack_u8 fresh [⟨List.replicate 256 120, 5, []⟩]).m_index_file = [0, 0, 0] := by
  have hnew : 5 ∉ fresh.m_format_string_table := by simp [fresh]
  rw [run, List.foldl_cons, List.foldl_nil, log_new pack_u8 fresh _ 5 [] hnew]
  have hlen : (List.replicate 256 120).length % 256 = 0 := by rw [List.length_replicate]
  rw [hlen, List.take_zero]
  rfl

/-- C7 (amended): for every sequence of log calls on a fresh session with
literals of at most 255 bytes and at most 255 arguments each, the index file
is the concatenation of exactly one record per distinct fingerprint of the
sequence, in the order in which the fingerprints first occur: the j-th
record is a slot byte followed by the length, the literal and the argument
count of the call that first used the j-th distinct fingerprint. -/
theorem C7_index_file_first_occurrences {α : Type} (pack : α → List Nat)
    (calls : List (Call α))
    (hbounds : ∀ c ∈ calls, c.F.length ≤ 255 ∧ c.args.length ≤ 255) :
    ((first_uses [] calls).map Call.H).Nodup
    ∧ (∀ c ∈ calls, c.H ∈ (first_uses [] calls).map Call.H)
    ∧ ∃ slots : List Nat, slots.length = (first_uses [] calls).length ∧
        (∀ x ∈ slots, x < 256) ∧
        (run pack fresh calls).m_index_file
          = (List.zipWith (fun slot c => index_record slot c.F c.args.length) slots
              (first_uses [] calls)).flatten := by
  refine ⟨nodup_first_uses calls [], fun c hc => ?_, ?_⟩
  · rcases H_mem_first_uses calls [] c hc with e | e
    · simp at e
    · exact e
  · obtain ⟨slots, h1, h2, h3⟩ := index_run pack fresh calls [] (by simp [fresh]) hbounds
    exact ⟨slots, h1, h2, by simpa [fresh] using h3⟩

/-- C7 (amended), at the sample session with fingerprints 3, 3, 9. -/
theorem C7_index_file_first_occurrences_witness :
    ((first_uses [] example_calls).map Call.H).Nodup
    ∧ (∀ c ∈ example_calls, c.H ∈ (first_uses [] example_calls).map Call.H)
    ∧ ∃ slots : List Nat, slots.length = (first_uses [] example_calls).length ∧
        (∀ x ∈ slots, x < 256) ∧
        (run pack_u8 fresh example_calls).m_index_file
          = (List.zipWith (fun slot c => index_record slot c.F c.args.length) slots
              (first_uses [] example_calls)).flatten :=
  C7_index_file_first_occurrences pack_u8 example_calls (by decide)

/-- C8 (code defect): on a fresh session, logging three literals with the
fingerprints 9, 4 and 1 writes three index records that all carry slot
byte 0. -/
theorem C8_three_records_share_slot_zero :
    (run pack_u8 fresh [⟨[120], 9, []⟩, ⟨[121], 4, []⟩, ⟨[122], 1, []⟩]).m_index_file
      = index_record 0 [120] 0 ++ index_record 0 [121] 0 ++ index_record 0 [122] 0 := by
  decide

/-- C9 (code defect): on a fresh session, logging fingerprint 40000, then
20000, then 40000 again leaves an index file whose two records carry slot
byte 0, while the third log record starts with slot byte 1, the slot of no
index record. -/
theorem C9_log_record_slot_without_index_record :
    (run pack_u8 fresh [⟨[120], 40000, []⟩, ⟨[121], 20000, []⟩,
        ⟨[120], 40000, [9]⟩]).m_index_file
      = index_record 0 [120] 0 ++ index_record 0 [121] 0
    ∧ (run pack_u8 fresh [⟨[120], 40000, []⟩, ⟨[121], 20000, []⟩,
        ⟨[120], 40000, [9]⟩]).m_log_file
      = log_record pack_u8 0 [] ++ log_record pack_u8 0 [] ++ log_record pack_u8 1 [9] := by
  decide

/-! ## One literal logged repeatedly -/

theorem run_single_fingerprint {α : Type} (pack : α → List Nat) (F : List Nat) (H : Nat)
    (argss : List (List α)) (s : binary_log) (h : s.m_format_string_table = [H]) :
    run pack s (argss.map (fun a => ⟨F, H, a⟩))
      = ⟨s.m_index_file,
          s.m_log_file ++ (argss.map (fun a => log_record pack 0 a)).flatten, [H]⟩ := by
  induction argss generalizing s with
  | nil => cases s; simp_all [run_nil]
  | cons a rest ih =>
    have hm : H ∈ s.m_format_string_table := by rw [h]; simp
    rw [List.map_cons, run_cons, log_known pack s F H a hm]
    have hstep := ih ⟨s.m_index_file,
      s.m_log_file ++ log_record pack (s.m_format_string_table.indexOf H % 256) a,
      s.m_format_string_table⟩ h
    rw [hstep]
    simp [h]

/-- C10: for every literal F with fingerprint H and every N >= 1 calls that
log F with H on a fresh session (each with its own arguments), the index
file holds exactly one record, with slot byte 0, and the log file holds
exactly N records, one per call in call order, each starting with that slot
byte 0. -/
theorem C10_same_literal_N_times {α : Type} (pack : α → List Nat) (F : List Nat) (H : Nat)
    (argss : List (List α)) (hN : 1 ≤ argss.length) :
    (run pack fresh (argss.map (fun a => ⟨F, H, a⟩))).m_index_file
        = index_record 0 (F.take (F.length % 256)) ((argss.headD []).length % 256)
    ∧ (run pack fresh (argss.map (fun a => ⟨F, H, a⟩))).m_log_file
        = (argss.map (fun a => log_record pack 0 a)).flatten
    ∧ (argss.map (fun a => log_record pack 0 a)).length = argss.length := by
  cases argss with
  | nil => simp at hN
  | cons a rest =>
    have hnew : H ∉ fresh.m_format_string_table := by simp [fresh]
    rw [List.map_cons, run_cons, run_single_fingerprint pack F H rest _
      (by rw [log_new pack fresh F H a hnew]; rfl), log_new pack fresh F H a hnew]
    simp [fresh, set_insert]

/-- C10, at N = 3: "x={}" logged three times with fingerprint 3. -/
theorem C10_same_literal_N_times_witness :
    (run pack_u8 fresh
        ([[5], [7], [9]].map (fun a => ⟨[120, 61, 123, 125], 3, a⟩))).m_index_file
      = [0, 4, 120, 61, 123, 125, 1]
    ∧ (run pack_u8 fresh
        ([[5], [7], [9]].map (fun a => ⟨[120, 61, 123, 125], 3, a⟩))).m_log_file
      = [0, 5, 0, 7, 0, 9] :=
  have h := C10_same_literal_N_times pack_u8 [120, 61, 123, 125] 3 [[5], [7], [9]] (by decide)
  ⟨h.1.trans (by decide), h.2.1.trans (by decide)⟩

/-! ## The example of the testable properties -/

/-- C11 (code defect): with fingerprint 5 for "x={}" and the smaller
fingerprint 3 for "y={}", the three calls of the example on a fresh session
write slot byte 0, not 1, in the index record of "y={}" and in the third
log record, whatever the packer and the argument values. -/
theorem C11_example_with_smaller_second_fingerprint {α : Type} (pack : α → List Nat)
    (v5 v7 va : α) :
    (run pack fresh [⟨[120, 61, 123, 125], 5, [v5]⟩, ⟨[120, 61, 123, 125], 5, [v7]⟩,
        ⟨[121, 61, 123, 125], 3, [va]⟩]).m_index_file
      = [0, 4, 120, 61, 123, 125, 1, 0, 4, 121, 61, 123, 125, 1]
    ∧ (run pack fresh [⟨[120, 61, 123, 125], 5, [v5]⟩, ⟨[120, 61, 123, 125], 5, [v7]⟩,
        ⟨[121, 61, 123, 125], 3, [va]⟩]).m_log_file
      = [0] ++ pack v5 ++ [0] ++ pack v7 ++ [0] ++ pack va := by
  have h1 : (5 : Nat) ∉ fresh.m_format_string_table := by simp [fresh]
  simp only [run, List.foldl_cons, List.foldl_nil]
  rw [log_new pack fresh _ 5 [v5] h1]
  rw [log_known pack _ _ 5 [v7] (by simp [fresh, set_insert])]
  rw [log_new pack _ _ 3 [va] (by simp [fresh, set_insert])]
  simp [fresh, set_insert, index_record, log_record, packed]

theorem example_of_lt {α : Type} (pack : α → List Nat) (v5 v7 va : α) (Hx Hy : Nat)
    (h : Hx < Hy) :
    (run pack fresh [⟨[120, 61, 123, 125], Hx, [v5]⟩, ⟨[120, 61, 123, 125], Hx, [v7]⟩,
        ⟨[121, 61, 123, 125], Hy, [va]⟩]).m_index_file
      = [0, 4, 120, 61, 123, 125, 1, 1, 4, 121, 61, 123, 125, 1]
    ∧ (run pack fresh [⟨[120, 61, 123, 125], Hx, [v5]⟩, ⟨[120, 61, 123, 125], Hx, [v7]⟩,
        ⟨[121, 61, 123, 125], Hy, [va]⟩]).m_log_file
      = [0] ++ pack v5 ++ [0] ++ pack v7 ++ [1] ++ pack va := by
  have h1 : Hx ∉ fresh.m_format_string_table := by simp [fresh]
  simp only [run, List.foldl_cons, List.foldl_nil]
  rw [log_new pack fresh _ Hx [v5] h1]
  rw [log_known pack _ _ Hx [v7] (by simp [fresh, set_insert])]
  rw [log_greatest pack _ _ Hy [va] (by simp [fresh, set_insert, h])]
  simp [fresh, set_insert, index_record, log_record, packed]

/-! ## Record layouts and frame of one call -/

/-- C12: index record layout. For every session state and every log call
whose fingerprint is not yet in the table, with a literal of length
L <= 255 and n <= 255 arguments, the index file grows by exactly L + 3
bytes: the slot byte (the one the log record starts with), then the byte L,
then the L bytes of the literal in order, then the byte n. -/
theorem C12_index_record_layout {α : Type} (pack : α → List Nat) (s : binary_log)
    (F : List Nat) (H : Nat) (args : List α) (hnew : H ∉ s.m_format_string_table)
    (hL : F.length ≤ 255) (hn : args.length ≤ 255) :
    ∃ slot, slot < 256
      ∧ (log pack s F H args).m_index_file
          = s.m_index_file ++ ([slot] ++ [F.length] ++ F ++ [args.length])
      ∧ (log pack s F H args).m_index_file.length = s.m_index_file.length + (F.length + 3)
      ∧ (log pack s F H args).m_log_file = s.m_log_file ++ ([slot] ++ packed pack args) := by
  have htake : List.take (F.length % 256) F = F := by
    rw [Nat.mod_eq_of_lt (by omega)]; exact List.take_of_length_le (Nat.le_refl _)
  have hargs : args.length % 256 = args.length := Nat.mod_eq_of_lt (by omega)
  rw [log_new pack s F H args hnew, htake, hargs]
  refine ⟨(set_insert H s.m_format_string_table).indexOf H % 256,
    Nat.mod_lt _ (by decide), ?_, ?_, ?_⟩
  · simp [index_record]
  · simp [index_record]
  · simp [log_record]

/-- C12, at the first call of a fresh session: "x={}" with fingerprint 3 and
one argument. -/
theorem C12_index_record_layout_witness :
    ∃ slot, slot < 256
      ∧ (log pack_u8 fresh [120, 61, 123, 125] 3 [5]).m_index_file
          = fresh.m_index_file ++ ([slot] ++ [4] ++ [120, 61, 123, 125] ++ [1])
      ∧ (log pack_u8 fresh [120, 61, 123, 125] 3 [5]).m_index_file.length
          = fresh.m_index_file.length + (4 + 3)
      ∧ (log pack_u8 fresh [120, 61, 123, 125] 3 [5]).m_log_file
          = fresh.m_log_file ++ ([slot] ++ packed pack_u8 [5]) :=
  C12_index_record_layout pack_u8 fresh [120, 61, 123, 125] 3 [5] (by decide) (by decide)
    (by decide)

/-- C13: log record layout. For every session state and every log call
with arguments a1..an (n >= 0), the log file grows by exactly one slot byte
followed by pack(a1) ++ pack(a2) ++ ... ++ pack(an) in call order and by no
other byte; with n = 0 the record is the single slot byte. -/
theorem C13_log_record_layout {α : Type} (pack : α → List Nat) (s : binary_log)
    (F : List Nat) (H : Nat) (args : List α) :
    ∃ slot, slot < 256
      ∧ (log pack s F H args).m_log_file
          = s.m_log_file ++ slot :: (args.map pack).flatten
      ∧ (log pack s F H ([] : List α)).m_log_file = s.m_log_file ++ [slot] := by
  by_cases hm : H ∈ s.m_format_string_table
  · rw [log_known pack s F H args hm, log_known pack s F H [] hm]
    exact ⟨s.m_format_string_table.indexOf H % 256, Nat.mod_lt _ (by decide), rfl, rfl⟩
  · rw [log_new pack s F H args hm, log_new pack s F H [] hm]
    exact ⟨(set_insert H s.m_format_string_table).indexOf H % 256,
      Nat.mod_lt _ (by decide), rfl, rfl⟩

/-- C14: frame of a call with a known fingerprint. For every session state
and every log call whose fingerprint is already in the table, the index
file and the table are unchanged, and the log file is the old log file
followed by a non-empty record. -/
theorem C14_known_fingerprint_frame {α : Type} (pack : α → List Nat) (s : binary_log)
    (F : List Nat) (H : Nat) (args : List α) (hknown : H ∈ s.m_format_string_table) :
    (log pack s F H args).m_index_file = s.m_index_file
    ∧ (log pack s F H args).m_format_string_table = s.m_format_string_table
    ∧ ∃ record, record ≠ []
        ∧ (log pack s F H args).m_log_file = s.m_log_file ++ record := by
  rw [log_known pack s F H args hknown]
  exact ⟨rfl, rfl, _, by simp [log_record], rfl⟩

/-- C14, at the second call of the sample session: fingerprint 3 is in the
table after the first call. -/
theorem C14_known_fingerprint_frame_witness :
    3 ∈ (log pack_u8 fresh [120, 61, 123, 125] 3 [5]).m_format_string_table
    ∧ (log pack_u8 (log pack_u8 fresh [120, 61, 123, 125] 3 [5]) [120, 61, 123, 125] 3
        [7]).m_index_file = [0, 4, 120, 61, 123, 125, 1]
    ∧ (log pack_u8 (log pack_u8 fresh [120, 61, 123, 125] 3 [5]) [120, 61, 123, 125] 3
        [7]).m_format_string_table = [3] :=
  have h := C14_known_fingerprint_frame pack_u8 (log pack_u8 fresh [120, 61, 123, 125] 3 [5])
    [120, 61, 123, 125] 3 [7] (by decide)
  ⟨by decide, h.1.trans (by decide), h.2.1.trans (by decide)⟩

/-! ## Fixed-width values -/

theorem length_le_bytes (w v : Nat) : (le_bytes w v).length = w := by
  induction w generalizing v with
  | zero => rfl
  | succ w ih => simp [le_bytes, ih]

theorem le_bytes_lt (w v b : Nat) (h : b ∈ le_bytes w v) : b < 256 := by
  induction w generalizing v with
  | zero => simp [le_bytes] at h
  | succ w ih =>
    rcases List.mem_cons.1 h with e | e
    · rw [e]; exact Nat.mod_lt _ (by decide)
    · exact ih _ e

theorem of_le_bytes_le_bytes (w v : Nat) (h : v < 256 ^ w) : of_le_bytes (le_bytes w v) = v := by
  induction w generalizing v with
  | zero =>
    have : v = 0 := by simpa using h
    simp [le_bytes, of_le_bytes, this]
  | succ w ih =>
    have hdiv : v / 256 < 256 ^ w := Nat.div_lt_of_lt_mul (by rw [← pow_succ']; exact h)
    rw [le_bytes, of_le_bytes, ih _ hdiv]
    exact Nat.mod_add_div v 256

theorem of_byte_array_to_byte_array (order : ByteOrder) (w v : Nat) (h : v < 256 ^ w) :
    of_byte_array order (to_byte_array order w v) = v := by
  cases order
  · exact of_le_bytes_le_bytes w v h
  · simp only [of_byte_array, to_byte_array, object_representation, List.reverse_reverse]
    exact of_le_bytes_le_bytes w v h

/-- C15: for every byte order of the host, every width w and every unsigned
value v of w bytes, `to_byte_array(v)` has exactly w bytes, they are the
bytes of v's object representation in that byte order, reassembling them in
that order gives back v, and two values with the same byte array are
equal. -/
theorem C15_to_byte_array_round_trip (order : ByteOrder) (w v v2 : Nat)
    (hv : v < 256 ^ w) (hv2 : v2 < 256 ^ w) :
    (to_byte_array order w v).length = w
    ∧ (∀ b ∈ to_byte_array order w v, b < 256)
    ∧ to_byte_array order w v = object_representation order w v
    ∧ of_byte_array order (to_byte_array order w v) = v
    ∧ (to_byte_array order w v = to_byte_array order w v2 → v = v2) := by
  refine ⟨?_, ?_, rfl, of_byte_array_to_byte_array order w v hv, ?_⟩
  · cases order <;> simp [to_byte_array, object_representation, length_le_bytes]
  · intro b hb
    cases order
    · exact le_bytes_lt w v b hb
    · exact le_bytes_lt w v b (List.mem_reverse.1 hb)
  · intro e
    rw [← of_byte_array_to_byte_array order w v hv, e,
      of_byte_array_to_byte_array order w v2 hv2]

/-- C15, at the two-byte values 258 and 513 on a little-endian host. -/
theorem C15_to_byte_array_round_trip_witness :
    to_byte_array ByteOrder.little 2 258 = [2, 1]
    ∧ of_byte_array ByteOrder.little (to_byte_array ByteOrder.little 2 258) = 258
    ∧ (to_byte_array ByteOrder.little 2 258 = to_byte_array ByteOrder.little 2 513
        → 258 = 513) :=
  have h := C15_to_byte_array_round_trip ByteOrder.little 2 258 513 (by decide) (by decide)
  ⟨by decide, h.2.2.2.1, h.2.2.2.2⟩

/-! ## The slot byte is the sorted rank -/

theorem indexOf_eq_countP_lt (t : List Nat) (H : Nat) (hs : t.Sorted (· < ·)) (hm : H ∈ t) :
    t.indexOf H = t.countP (fun x => decide (x < H)) := by
  induction t with
  | nil => simp at hm
  | cons x xs ih =>
    have hx := List.sorted_cons.1 hs
    by_cases e : x = H
    · subst e
      rw [List.indexOf_cons_self, List.countP_cons_of_neg _ _ (by simp)]
      symm
      rw [List.countP_eq_zero]
      intro a ha
      have := hx.1 a ha
      simp only [decide_eq_true_eq]
      omega
    · have hm2 : H ∈ xs := by
        rcases List.mem_cons.1 hm with e2 | e2
        · exact absurd e2.symm e
        · exact e2
      have hlt : x < H := hx.1 H hm2
      rw [List.indexOf_cons_ne _ e, List.countP_cons_of_pos _ _ (by simpa using hlt),
        ih hx.2 hm2]

/-- C16: for every session state (the table being in increasing order, as
a `std::set` is) and every log call with fingerprint H, the log file grows
by a record whose slot byte is the number of fingerprints in the table
after the call that are smaller than H, reduced modulo 256; when H is new,
the index file grows by a record that starts with the same byte. -/
theorem C16_slot_is_count_of_smaller {α : Type} (pack : α → List Nat) (s : binary_log)
    (F : List Nat) (H : Nat) (args : List α)
    (hsorted : s.m_format_string_table.Sorted (· < ·)) :
    (log pack s F H args).m_log_file
        = s.m_log_file
          ++ ((log pack s F H args).m_format_string_table.countP (fun x => decide (x < H))
                % 256) :: packed pack args
    ∧ (H ∉ s.m_format_string_table →
        (log pack s F H args).m_index_file
          = s.m_index_file
            ++ ((log pack s F H args).m_format_string_table.countP
                  (fun x => decide (x < H)) % 256)
                :: ([F.length % 256] ++ F.take (F.length % 256) ++ [args.length % 256])) := by
  have hs2 := table_sorted_log pack s F H args hsorted
  have hm2 : H ∈ (log pack s F H args).m_format_string_table :=
    (mem_table_log pack s F H args H).2 (Or.inl rfl)
  have hcount := indexOf_eq_countP_lt _ H hs2 hm2
  rw [← hcount]
  by_cases hm : H ∈ s.m_format_string_table
  · rw [log_known pack s F H args hm]
    exact ⟨rfl, fun h => absurd hm h⟩
  · rw [log_new pack s F H args hm]
    refine ⟨rfl, fun _ => ?_⟩
    have hlen : (List.take (F.length % 256) F).length = F.length % 256 := by
      rw [List.length_take]; exact Nat.min_eq_left (Nat.mod_le _ _)
    simp [index_record, hlen]

/-- C16, at the session that has logged the fingerprints 5 and 3: a call
with fingerprint 5 writes slot byte 1, the number of smaller fingerprints
in the table 3, 5. -/
theorem C16_slot_is_count_of_smaller_witness :
    (log pack_u8 (log pack_u8 fresh [120] 5 []) [121] 3 []).m_format_string_table.Sorted
        (· < ·)
    ∧ (log pack_u8 (log pack_u8 (log pack_u8 fresh [120] 5 []) [121] 3 []) [120] 5
        [9]).m_log_file = [0, 0, 1, 9] :=
  ⟨by decide,
    (C16_slot_is_count_of_smaller pack_u8 (log pack_u8 (log pack_u8 fresh [120] 5 []) [121] 3 [])
      [120] 5 [9] (by decide)).1.trans (by decide)⟩

/-! ## Slots when first occurrences increase -/

theorem first_uses_snoc {α : Type} (l : List (Call α)) (a : Call α) :
    first_uses [] (l ++ [a])
      = if a.H ∈ (first_uses [] l).map Call.H then first_uses [] l
        else first_uses [] l ++ [a] := by
  have hiff : a.H ∈ l.map Call.H ++ [] ↔ a.H ∈ (first_uses [] l).map Call.H := by
    rw [List.append_nil]
    constructor
    · intro h
      obtain ⟨c, hc, hcH⟩ := List.mem_map.1 h
      rcases H_mem_first_uses l [] c hc with e | e
      · simp at e
      · rw [← hcH]; exact e
    · intro h
      obtain ⟨c, hc, hcH⟩ := List.mem_map.1 h
      exact List.mem_map.2 ⟨c, mem_of_mem_first_uses l [] c hc, hcH⟩
  rw [first_uses_append]
  by_cases h : a.H ∈ (first_uses [] l).map Call.H
  · rw [if_pos h, first_uses, if_pos (hiff.2 h), first_uses, List.append_nil]
  · rw [if_neg h, first_uses, if_neg (fun e => h (hiff.1 e)), first_uses]

theorem files_of_sorted_first_uses {α : Type} (pack : α → List Nat) (calls : List (Call α))
    (hincr : ((first_uses [] calls).map Call.H).Sorted (· < ·))
    (hdistinct : (first_uses [] calls).length ≤ 256) :
    (run pack fresh calls).m_format_string_table = (first_uses [] calls).map Call.H
    ∧ (run pack fresh calls).m_index_file
        = (List.zipWith
            (fun k c => index_record k (c.F.take (c.F.length % 256)) (c.args.length % 256))
            (List.range (first_uses [] calls).length) (first_uses [] calls)).flatten
    ∧ (run pack fresh calls).m_log_file
        = (calls.map (fun c =>
            log_record pack (((first_uses [] calls).map Call.H).indexOf c.H) c.args)).flatten := by
  induction calls using List.reverseRecOn with
  | nil => exact ⟨rfl, rfl, rfl⟩
  | append_singleton l a ih =>
    rw [first_uses_snoc] at hincr hdistinct ⊢
    rw [run_snoc]
    by_cases hm : a.H ∈ (first_uses [] l).map Call.H
    · rw [if_pos hm] at hincr hdistinct ⊢
      obtain ⟨ht, hidx, hlog⟩ := ih hincr hdistinct
      have hmt : a.H ∈ (run pack fresh l).m_format_string_table := by rw [ht]; exact hm
      rw [log_known pack _ a.F a.H a.args hmt]
      refine ⟨ht, hidx, ?_⟩
      simp only [List.map_append, List.flatten_append, hlog, List.map_cons, List.map_nil,
        List.flatten_cons, List.flatten_nil, List.append_nil, ht]
      rw [Nat.mod_eq_of_lt]
      have := List.indexOf_lt_length.2 hm
      rw [List.length_map] at this
      omega
    · rw [if_neg hm] at hincr hdistinct ⊢
      rw [List.map_append] at hincr
      rw [List.length_append] at hdistinct
      have hp := List.pairwise_append.1 hincr
      obtain ⟨ht, hidx, hlog⟩ := ih hp.1 (by omega)
      have hlt : ∀ x ∈ (run pack fresh l).m_format_string_table, x < a.H := by
        intro x hx
        rw [ht] at hx
        exact hp.2.2 x hx a.H (by simp)
      have hlen : (run pack fresh l).m_format_string_table.length
          = (first_uses [] l).length := by rw [ht, List.length_map]
      have hmod : (first_uses [] l).length % 256 = (first_uses [] l).length :=
        Nat.mod_eq_of_lt (by simp at hdistinct; omega)
      rw [log_greatest pack _ a.F a.H a.args hlt, hlen, hmod]
      refine ⟨?_, ?_, ?_⟩
      · simp [ht]
      · simp only [hidx, List.length_append, List.length_cons, List.length_nil]
        rw [List.range_succ, List.zipWith_append _ _ _ _ _ (by simp)]
        simp
      · simp only [List.map_append, List.flatten_append, List.map_cons, List.map_nil,
          List.flatten_cons, List.flatten_nil, List.append_nil, hlog]
        congr 1
        · congr 1
          apply List.map_congr_left
          intro c hc
          have hcD : c.H ∈ (first_uses [] l).map Call.H := by
            rcases H_mem_first_uses l [] c hc with e | e
            · simp at e
            · exact e
          rw [List.indexOf_append_of_mem hcD]
        · rw [List.indexOf_append_of_not_mem hm]
          simp

/-- C17: for every sequence of log calls on a fresh session in which the
distinct fingerprints first occur in strictly increasing numeric order and
number at most 256, the index record of the k-th distinct fingerprint
carries slot byte k, every call (the first and the later ones) with that
fingerprint writes slot byte k in its log record, and the slot bytes of the
index records, 0, 1, 2, ..., are pairwise distinct. -/
theorem C17_slots_when_first_occurrences_increase {α : Type} (pack : α → List Nat)
    (calls : List (Call α))
    (hincr : ((first_uses [] calls).map Call.H).Sorted (· < ·))
    (hdistinct : (first_uses [] calls).length ≤ 256) :
    (run pack fresh calls).m_index_file
        = (List.zipWith
            (fun k c => index_record k (c.F.take (c.F.length % 256)) (c.args.length % 256))
            (List.range (first_uses [] calls).length) (first_uses [] calls)).flatten
    ∧ (run pack fresh calls).m_log_file
        = (calls.map (fun c =>
            log_record pack (((first_uses [] calls).map Call.H).indexOf c.H) c.args)).flatten
    ∧ (List.range (first_uses [] calls).length).Nodup :=
  ⟨(files_of_sorted_first_uses pack calls hincr hdistinct).2.1,
    (files_of_sorted_first_uses pack calls hincr hdistinct).2.2, List.nodup_range _⟩

/-- C17, at the sample session with fingerprints 3, 3, 9: slots 0, 0, 1. -/
theorem C17_slots_when_first_occurrences_increase_witness :
    ((first_uses [] example_calls).map Call.H).Sorted (· < ·)
    ∧ (run pack_u8 fresh example_calls).m_index_file
        = [0, 4, 120, 61, 123, 125, 1, 1, 4, 121, 61, 123, 125, 2]
    ∧ (run pack_u8 fresh example_calls).m_log_file = [0, 5, 0, 7, 1, 1, 2] :=
  have h := C17_slots_when_first_occurrences_increase pack_u8 example_calls (by decide)
    (by decide)
  ⟨by decide, h.1.trans (by decide), h.2.1.trans (by decide)⟩

/-! ## Literals of 256 bytes or more -/

/-- C18: for every session state and every literal of length L, whatever
L, that a call registers under a new fingerprint, the call completes and
the index record it appends is the slot byte, the length byte L mod 256,
exactly the first L mod 256 bytes of the literal and the arg_count byte; the
literal bytes written are as many as the length byte says, and when L is
256 or more they are not the whole literal. -/
theorem C18_length_byte_wraps {α : Type} (pack : α → List Nat) (s : binary_log)
    (F : List Nat) (H : Nat) (args : List α) (hnew : H ∉ s.m_format_string_table) :
    ∃ slot,
      (log pack s F H args).m_index_file
        = s.m_index_file
          ++ ([slot, F.length % 256] ++ F.take (F.length % 256) ++ [args.length % 256])
      ∧ (F.take (F.length % 256)).length = F.length % 256
      ∧ (256 ≤ F.length → (F.take (F.length % 256)).length < F.length) := by
  have hlen : (List.take (F.length % 256) F).length = F.length % 256 := by
    rw [List.length_take]; exact Nat.min_eq_left (Nat.mod_le _ _)
  rw [log_new pack s F H args hnew]
  refine ⟨(set_insert H s.m_format_string_table).indexOf H % 256, ?_, hlen, ?_⟩
  · simp [index_record, hlen]
  · intro h
    rw [hlen]
    have := Nat.mod_lt F.length (by decide : 0 < 256)
    omega

/-- C18, at a fresh session and a literal of 256 bytes: the length byte is
256 mod 256 and no literal byte is written. -/
theorem C18_length_byte_wraps_witness :
    ∃ slot,
      (log pack_u8 fresh (List.replicate 256 120) 5 []).m_index_file
        = fresh.m_index_file
          ++ ([slot, (List.replicate 256 120).length % 256]
              ++ (List.replicate 256 120).take ((List.replicate 256 120).length % 256)
              ++ [([] : List (Fin 256)).length % 256])
      ∧ ((List.replicate 256 120).take ((List.replicate 256 120).length % 256)).length
          = (List.replicate 256 120).length % 256
      ∧ (256 ≤ (List.replicate 256 120).length →
          ((List.replicate 256 120).take ((List.replicate 256 120).length % 256)).length
            < (List.replicate 256 120).length) :=
  C18_length_byte_wraps pack_u8 fresh (List.replicate 256 120) 5 [] (by decide)

end binary_log
